import Mathlib

/-!
Verification of the Automated-FileManager repository against its
natural-language specification.

The development shallowly embeds the parts of the code base that the
checked claims are about:

* `src/automanager/core/file_operation_service.py` — the
  `FileOperationService` class (batch delete, rename, the internal
  clipboard and `paste_from_clipboard`).
* `src/commands.py` — the `CommandInterpreter` dispatch loop and the
  `cd` / `rm` command handlers.
* `src/automanager/app_window.py` — the `FOUND_FILES_JSON:` extraction
  in `MainWindow._handle_llm_response`.
* `src/automanager/core/metadata_service.py` — `MetadataService`
  (`get_metadata` / `save_metadata`) over an embedded key-value model of
  the SQLite table `file_metadata`.

The POSIX filesystem visible to the program is modelled semantically: an
absolute path is its list of components (`/a/b` is `["a", "b"]`), and the
filesystem is an association list from paths to node kinds.  `os.path`
string functions on normalised absolute paths correspond to the evident
component-list operations (`os.path.basename` is the last component,
`os.path.join(d, name)` for a plain name appends one component,
`os.path.dirname` drops the last component).  The model contains no
symbolic links, and filesystem primitives do not fail (no permission
errors), which matches the scenarios the claims quantify over.
-/

namespace AutoFM

/-- An absolute POSIX path, as its list of components. -/
abbrev FPath := List String

/-- Kind of a filesystem node. -/
inductive NodeKind where
  | file
  | dir
deriving DecidableEq, Repr

/-- The filesystem: an association list from absolute paths to node kinds. -/
abbrev FS := List (FPath × NodeKind)

/-- First-match lookup of a path in the filesystem. -/
def fsGet : FS → FPath → Option NodeKind
  | [], _ => none
  | (q, k) :: rest, p => if q = p then some k else fsGet rest p

/-- Model of `os.path.exists`. -/
def fsExists (fs : FS) (p : FPath) : Bool :=
  (fsGet fs p).isSome

/-- Model of `os.path.isdir`. -/
def fsIsDir (fs : FS) (p : FPath) : Bool :=
  match fsGet fs p with
  | some NodeKind.dir => true
  | _ => false

/-- Model of `os.path.isfile`. -/
def fsIsFile (fs : FS) (p : FPath) : Bool :=
  match fsGet fs p with
  | some NodeKind.file => true
  | _ => false

/-- Model of `os.path.islink`: the modelled filesystem has no symlinks. -/
def fsIsLink (_fs : FS) (_p : FPath) : Bool :=
  false

/-- `isUnder a k` holds when `k` is `a` itself or lies below directory `a`
(component-list prefix, the semantic counterpart of the string test
`k == a or k.startswith(a + "/")`). -/
def isUnder : FPath → FPath → Bool
  | [], _ => true
  | _ :: _, [] => false
  | a :: as, b :: bs => a == b && isUnder as bs

/-- Model of `os.path.basename` on a nonempty absolute path. -/
def basename (p : FPath) : String :=
  p.getLastD ""

/-- Model of `os.path.dirname`. -/
def dirname (p : FPath) : FPath :=
  p.dropLast

/-- Model of `os.remove` / `os.unlink` on a file path. -/
def fsRemove (fs : FS) (p : FPath) : FS :=
  fs.filter (fun e => !(e.1 == p))

/-- Model of `shutil.rmtree`: removes the directory and everything below it. -/
def fsRmtree (fs : FS) (p : FPath) : FS :=
  fs.filter (fun e => !(isUnder p e.1))

/-- Model of `shutil.move` / `os.rename` to a fresh destination: every node at
or below `src` is re-rooted at `dst`. -/
def fsMove (fs : FS) (src dst : FPath) : FS :=
  fs.map (fun e => (if isUnder src e.1 then dst ++ e.1.drop src.length else e.1, e.2))

/-- Model of `shutil.copy2` of a single file to a fresh destination path. -/
def fsCopy2 (fs : FS) (_src dst : FPath) : FS :=
  fs ++ [(dst, NodeKind.file)]

/-- Model of `shutil.copytree` to a fresh destination: every node at or below
`src` is duplicated below `dst`. -/
def fsCopytree (fs : FS) (src dst : FPath) : FS :=
  fs ++ (fs.filter (fun e => isUnder src e.1)).map
    (fun e => (dst ++ e.1.drop src.length, e.2))

/-- Well-formedness of a filesystem snapshot: every proper nonempty prefix of a
stored path is itself stored (children do not exist without their ancestors).
Stated over the finitely many prefixes of each key, so it is executable. -/
def FsWf (fs : FS) : Bool :=
  fs.all (fun e => (List.range e.1.length).all
    (fun i => i = 0 || fsExists fs (e.1.take i)))

/-- Model of Python's `str.strip()` (both-ends whitespace strip). -/
def pyStrip (s : String) : String :=
  ⟨((s.data.dropWhile Char.isWhitespace).reverse.dropWhile Char.isWhitespace).reverse⟩

/-- Model of Python's `str.split(sep)` for a one-character separator, at the
character-list level: separators delimit fields, empty fields are kept, and
the empty string yields one empty field. -/
def splitCharList (sep : Char) : List Char → List (List Char)
  | [] => [[]]
  | c :: cs =>
    match splitCharList sep cs with
    | [] => [[]]
    | p :: ps => if c = sep then [] :: p :: ps else (c :: p) :: ps

/-- Model of Python's `str.split(sep)` for a one-character separator. -/
def pySplit (sep : Char) (s : String) : List String :=
  (splitCharList sep s.data).map (fun l => (⟨l⟩ : String))

/-- Model of Python's `sep.join(parts)`. -/
def joinWith (sep : String) : List String → String
  | [] => ""
  | [x] => x
  | x :: y :: ys => x ++ sep ++ joinWith sep (y :: ys)

/-- Model of Python's `str.startswith`. -/
def pyStartsWith (s pre : String) : Bool :=
  pre.data.isPrefixOf s.data

/-- Model of Python's string slicing `s[n:]`. -/
def pyDrop (s : String) (n : Nat) : String :=
  ⟨s.data.drop n⟩

/-- ASCII lower-casing of one character (`str.lower` on the command names the
interpreter deals with). -/
def pyCharLower (c : Char) : Char :=
  if 'A' ≤ c && c ≤ 'Z' then Char.ofNat (c.toNat + 32) else c

/-- Model of Python's `str.lower()`. -/
def pyLower (s : String) : String :=
  ⟨s.data.map pyCharLower⟩

/-!
`FileOperationService` (src/automanager/core/file_operation_service.py).

The service's confirmation dialogs (`security_service.request_confirmation`)
are modelled by a boolean `answer` given to every request that an operation
makes; each result records in `confirms` how many requests were issued.
Filesystem exceptions are not modelled (the primitives above are total), so
the `except`-branches of the source never fire in the model.
-/

/-- The clipboard action of the single mutable clipboard slot. -/
inductive ClipAction where
  | copy
  | cut
deriving DecidableEq, Repr

/-- The service clipboard: the Python attribute is either the empty list `[]`
or the dict `\x7b'action': 'copy'|'cut', 'paths': [...]\x7d`. -/
inductive Clipboard where
  | empty
  | slot (action : ClipAction) (paths : List FPath)
deriving DecidableEq, Repr

/-- `FileOperationService.copy_to_clipboard`. -/
def copy_to_clipboard (paths : List FPath) : Clipboard :=
  if !paths.isEmpty then Clipboard.slot ClipAction.copy paths else Clipboard.empty

/-- `FileOperationService.cut_to_clipboard`. -/
def cut_to_clipboard (paths : List FPath) : Clipboard :=
  if !paths.isEmpty then Clipboard.slot ClipAction.cut paths else Clipboard.empty

/-- `FileOperationService.get_clipboard_status`: the `can_paste` field
(`bool(self.clipboard)`). -/
def get_clipboard_status (clip : Clipboard) : Bool :=
  !(clip == Clipboard.empty)

/-- Result of `FileOperationService.delete_items`. -/
structure DeleteResult where
  ok : Bool
  deletedCount : Nat
  errors : List String
  msg : String
  fs : FS
  confirms : Nat
deriving Repr

/-- The per-item loop of `delete_items`: files and links are `os.remove`d,
directories are `shutil.rmtree`d, anything else records a per-item error. -/
def deleteLoop : List FPath → FS → Nat → List String → FS × Nat × List String
  | [], fs, n, errs => (fs, n, errs)
  | p :: ps, fs, n, errs =>
    if fsIsFile fs p || fsIsLink fs p then
      deleteLoop ps (fsRemove fs p) (n + 1) errs
    else if fsIsDir fs p then
      deleteLoop ps (fsRmtree fs p) (n + 1) errs
    else
      deleteLoop ps fs n (errs ++ ["Not a file/directory: " ++ basename p])

/-- The cumulative summary message built at the end of `delete_items`. -/
def deleteMsg (n : Nat) (errs : List String) : String :=
  "Successfully deleted " ++ toString n ++ " item(s)."
    ++ (if errs.isEmpty then "" else "\nErrors occurred:\n" ++ joinWith "\n" errs)

/-- `FileOperationService.delete_items`. -/
def delete_items (fs : FS) (paths : List FPath) (answer : Bool) : DeleteResult :=
  if paths.isEmpty then
    ⟨false, 0, [], "No items selected for deletion.", fs, 0⟩
  else if !answer then
    ⟨false, 0, [], "Deletion cancelled by user.", fs, 1⟩
  else
    let r := deleteLoop paths fs 0 []
    ⟨r.2.2.isEmpty, r.2.1, r.2.2, deleteMsg r.2.1 r.2.2, r.1, 1⟩

/-- Result of `FileOperationService.rename_item`. -/
structure RenameResult where
  ok : Bool
  msg : String
  fs : FS
  confirms : Nat
deriving Repr

/-- `FileOperationService.rename_item`. -/
def rename_item (fs : FS) (old_path : FPath) (new_name : String) (answer : Bool) :
    RenameResult :=
  if !fsExists fs old_path then
    ⟨false, "Source path does not exist.", fs, 0⟩
  else if pyStrip new_name == "" then
    ⟨false, "New name cannot be empty.", fs, 0⟩
  else
    let old_name_base := basename old_path
    if new_name == old_name_base then
      ⟨true, "No change in name.", fs, 0⟩
    else
      let new_full_path := dirname old_path ++ [new_name]
      if fsExists fs new_full_path then
        ⟨false, "An item with the new name already exists in this location.", fs, 0⟩
      else if !answer then
        ⟨false, "Rename cancelled by user.", fs, 1⟩
      else
        ⟨true, "Renamed.", fsMove fs old_path new_full_path, 1⟩

/-- The copy/move block of the paste loop (`shutil.copytree` / `shutil.copy2`
for a copy, `shutil.move` for a cut). -/
def applyAction (act : ClipAction) (fs : FS) (src dst : FPath) : FS :=
  match act with
  | ClipAction.copy => if fsIsDir fs src then fsCopytree fs src dst else fsCopy2 fs src dst
  | ClipAction.cut => fsMove fs src dst

/-- One iteration of the `paste_from_clipboard` source loop.  Returns the new
filesystem, the success increment, an optional per-item error, and the number
of confirmation dialogs shown. -/
def pasteOne (answer : Bool) (destination_dir : FPath) (act : ClipAction)
    (fs : FS) (src : FPath) : FS × Nat × Option String × Nat :=
  if fsExists fs src then
    let base_name := basename src
    let dst_path := destination_dir ++ [base_name]
    if fsExists fs dst_path then
      if answer then
        let fs1 := if fsIsDir fs dst_path then fsRmtree fs dst_path else fsRemove fs dst_path
        (applyAction act fs1 src dst_path, 1, none, 1)
      else
        (fs, 0, some ("Skipped overwrite of " ++ base_name), 1)
    else
      (applyAction act fs src dst_path, 1, none, 0)
  else
    (fs, 0, some ("Source item no longer exists: " ++ basename src), 0)

/-- The source loop of `paste_from_clipboard`. -/
def pasteLoop (answer : Bool) (destination_dir : FPath) (act : ClipAction) :
    List FPath → FS → Nat → List String → Nat → FS × Nat × List String × Nat
  | [], fs, n, errs, c => (fs, n, errs, c)
  | src :: rest, fs, n, errs, c =>
    let r := pasteOne answer destination_dir act fs src
    pasteLoop answer destination_dir act rest r.1 (n + r.2.1) (errs ++ r.2.2.1.toList)
      (c + r.2.2.2)

/-- Result of `FileOperationService.paste_from_clipboard`. -/
structure PasteResult where
  ok : Bool
  successCount : Nat
  errors : List String
  fs : FS
  clipboard : Clipboard
  confirms : Nat
deriving Repr

/-- `FileOperationService.paste_from_clipboard`. -/
def paste_from_clipboard (fs : FS) (clip : Clipboard) (destination_dir : FPath)
    (answer : Bool) : PasteResult :=
  match clip with
  | Clipboard.empty => ⟨false, 0, [], fs, clip, 0⟩
  | Clipboard.slot act source_paths =>
    if !fsIsDir fs destination_dir then
      ⟨false, 0, [], fs, clip, 0⟩
    else if source_paths.isEmpty then
      ⟨false, 0, [], fs, clip, 0⟩
    else
      let r := pasteLoop answer destination_dir act source_paths fs 0 [] 0
      let fs' := r.1
      let n := r.2.1
      let errs := r.2.2.1
      let clip' :=
        if act == ClipAction.cut && (errs.isEmpty || n > 0) then Clipboard.empty else clip
      ⟨errs.isEmpty || n > 0, n, errs, fs', clip', r.2.2.2⟩

/-! Basic lemmas about the filesystem model. -/

theorem fsExists_iff {fs : FS} {p : FPath} :
    fsExists fs p = true ↔ ∃ k, (p, k) ∈ fs := by
  induction fs with
  | nil => simp [fsExists, fsGet]
  | cons e rest ih =>
    obtain ⟨q, k⟩ := e
    by_cases h : q = p
    · subst h
      simp [fsExists, fsGet]
    · simp only [fsExists, fsGet, if_neg h] at ih ⊢
      rw [ih]
      constructor
      · rintro ⟨k', hk'⟩
        exact ⟨k', List.mem_cons_of_mem _ hk'⟩
      · rintro ⟨k', hk'⟩
        rcases List.mem_cons.mp hk' with heq | hmem
        · exact absurd (congrArg Prod.fst heq).symm h
        · exact ⟨k', hmem⟩

theorem fsExists_filter {fs : FS} {f : FPath × NodeKind → Bool} {p : FPath}
    (h : fsExists (fs.filter f) p = true) : fsExists fs p = true := by
  rw [fsExists_iff] at h ⊢
  obtain ⟨k, hk⟩ := h
  exact ⟨k, (List.mem_filter.mp hk).1⟩

theorem isUnder_refl (p : FPath) : isUnder p p = true := by
  induction p with
  | nil => rfl
  | cons a as ih => simp [isUnder, ih]

theorem fsExists_fsRemove_self {fs : FS} {p : FPath} :
    fsExists (fsRemove fs p) p = false := by
  by_contra h
  simp only [Bool.not_eq_false] at h
  obtain ⟨k, hk⟩ := fsExists_iff.mp h
  have hpred := (List.mem_filter.mp hk).2
  simp at hpred

theorem fsExists_fsRmtree_of_under {fs : FS} {p q : FPath} (hq : isUnder p q = true) :
    fsExists (fsRmtree fs p) q = false := by
  by_contra h
  simp only [Bool.not_eq_false] at h
  obtain ⟨k, hk⟩ := fsExists_iff.mp h
  have hpred := (List.mem_filter.mp hk).2
  simp [hq] at hpred

theorem fsRemove_mono {fs : FS} {q p : FPath}
    (h : fsExists (fsRemove fs q) p = true) : fsExists fs p = true := by
  unfold fsRemove at h
  exact fsExists_filter h

theorem fsRmtree_mono {fs : FS} {q p : FPath}
    (h : fsExists (fsRmtree fs q) p = true) : fsExists fs p = true := by
  unfold fsRmtree at h
  exact fsExists_filter h

theorem fsRemove_not_exists {fs : FS} {q p : FPath}
    (h : fsExists fs p = false) : fsExists (fsRemove fs q) p = false := by
  by_contra hc
  simp only [Bool.not_eq_false] at hc
  rw [fsRemove_mono hc] at h
  simp at h

theorem fsRmtree_not_exists {fs : FS} {q p : FPath}
    (h : fsExists fs p = false) : fsExists (fsRmtree fs q) p = false := by
  by_contra hc
  simp only [Bool.not_eq_false] at hc
  rw [fsRmtree_mono hc] at h
  simp at h

theorem kinds_false_of_not_exists {fs : FS} {p : FPath} (h : fsExists fs p = false) :
    fsIsFile fs p = false ∧ fsIsDir fs p = false := by
  unfold fsExists at h
  unfold fsIsFile fsIsDir
  cases hg : fsGet fs p with
  | none => simp
  | some k => rw [hg] at h; simp at h

theorem fsExists_eq_false_of_kinds {fs : FS} {p : FPath}
    (hf : fsIsFile fs p = false) (hd : fsIsDir fs p = false) :
    fsExists fs p = false := by
  unfold fsIsFile at hf
  unfold fsIsDir at hd
  unfold fsExists
  cases hg : fsGet fs p with
  | none => simp
  | some k =>
    cases k
    · rw [hg] at hf; simp at hf
    · rw [hg] at hd; simp at hd

/-! Lemmas about the `delete_items` loop. -/

theorem deleteLoop_count (ps : List FPath) (fs : FS) (n : Nat) (errs : List String) :
    (deleteLoop ps fs n errs).2.1 + (deleteLoop ps fs n errs).2.2.length
      = n + errs.length + ps.length := by
  induction ps generalizing fs n errs with
  | nil => simp [deleteLoop]
  | cons p ps ih =>
    simp only [deleteLoop]
    split
    · rw [ih]; simp; omega
    · split
      · rw [ih]; simp; omega
      · rw [ih]; simp; omega

theorem deleteLoop_errs_extend (ps : List FPath) (fs : FS) (n : Nat) (errs : List String) :
    ∃ t, (deleteLoop ps fs n errs).2.2 = errs ++ t := by
  induction ps generalizing fs n errs with
  | nil => exact ⟨[], by simp [deleteLoop]⟩
  | cons p ps ih =>
    simp only [deleteLoop]
    split
    · exact ih _ _ _
    · split
      · exact ih _ _ _
      · obtain ⟨t, ht⟩ := ih fs n (errs ++ ["Not a file/directory: " ++ basename p])
        exact ⟨("Not a file/directory: " ++ basename p) :: t, by rw [ht, List.append_assoc]; rfl⟩

theorem deleteLoop_mono (ps : List FPath) (fs : FS) (n : Nat) (errs : List String)
    (q : FPath) (h : fsExists (deleteLoop ps fs n errs).1 q = true) :
    fsExists fs q = true := by
  induction ps generalizing fs n errs with
  | nil => simpa [deleteLoop] using h
  | cons p ps ih =>
    simp only [deleteLoop] at h
    split at h
    · exact fsRemove_mono (ih _ _ _ h)
    · split at h
      · exact fsRmtree_mono (ih _ _ _ h)
      · exact ih _ _ _ h

theorem deleteLoop_removed (ps : List FPath) (fs : FS) (n : Nat) (errs : List String) :
    ∀ p ∈ ps, fsExists (deleteLoop ps fs n errs).1 p = false := by
  induction ps generalizing fs n errs with
  | nil => simp
  | cons q ps ih =>
    intro p hp
    rcases List.mem_cons.mp hp with rfl | hmem
    · simp only [deleteLoop]
      split
      · by_contra hc
        simp only [Bool.not_eq_false] at hc
        have h2 := deleteLoop_mono ps _ _ _ p hc
        rw [fsExists_fsRemove_self] at h2
        exact Bool.false_ne_true h2
      · split
        · by_contra hc
          simp only [Bool.not_eq_false] at hc
          have h2 := deleteLoop_mono ps _ _ _ p hc
          rw [fsExists_fsRmtree_of_under (isUnder_refl p)] at h2
          exact Bool.false_ne_true h2
        · next hfile hdir =>
          by_contra hc
          simp only [Bool.not_eq_false] at hc
          have h2 := deleteLoop_mono ps _ _ _ p hc
          simp only [fsIsLink, Bool.or_false, Bool.not_eq_true] at hfile
          simp only [Bool.not_eq_true] at hdir
          rw [fsExists_eq_false_of_kinds hfile hdir] at h2
          exact Bool.false_ne_true h2
    · simp only [deleteLoop]
      split
      · exact ih _ _ _ p hmem
      · split
        · exact ih _ _ _ p hmem
        · exact ih _ _ _ p hmem

theorem deleteLoop_err_of_missing (ps : List FPath) (fs : FS) (n : Nat)
    (errs : List String) (h : ∃ p ∈ ps, fsExists fs p = false) :
    (deleteLoop ps fs n errs).2.2 ≠ [] := by
  induction ps generalizing fs n errs with
  | nil => simp at h
  | cons q ps ih =>
    obtain ⟨p, hp, hpf⟩ := h
    rcases List.mem_cons.mp hp with rfl | hmem
    · obtain ⟨hfile, hdir⟩ := kinds_false_of_not_exists hpf
      simp only [deleteLoop, hfile, hdir, fsIsLink, Bool.or_false, if_neg, Bool.false_eq_true,
        reduceIte]
      obtain ⟨t, ht⟩ :=
        deleteLoop_errs_extend ps fs n (errs ++ ["Not a file/directory: " ++ basename p])
      rw [ht]
      simp
    · simp only [deleteLoop]
      split
      · exact ih _ _ _ ⟨p, hmem, fsRemove_not_exists hpf⟩
      · split
        · exact ih _ _ _ ⟨p, hmem, fsRmtree_not_exists hpf⟩
        · exact ih _ _ _ ⟨p, hmem, hpf⟩

/-- C2: deleting a batch of paths (confirmation granted) in which at least one
path is missing and at least one exists removes every listed path that
existed, reports a success count strictly below the number of requested paths,
and produces a non-empty per-item error list (which `deleteMsg` folds into the
cumulative summary message). -/
theorem c2_delete_items_partial_failure (fs : FS) (paths : List FPath)
    (h1 : paths ≠ [])
    (h2 : ∃ p ∈ paths, fsExists fs p = false)
    (h3 : ∃ p ∈ paths, fsExists fs p = true) :
    (∀ p ∈ paths, fsExists (delete_items fs paths true).fs p = false) ∧
      (delete_items fs paths true).deletedCount < paths.length ∧
      (delete_items fs paths true).errors ≠ [] := by
  have hne : paths.isEmpty = false := by
    cases paths
    · exact absurd rfl h1
    · rfl
  have herr := deleteLoop_err_of_missing paths fs 0 [] h2
  have hcount := deleteLoop_count paths fs 0 []
  have hlen : 0 < (deleteLoop paths fs 0 []).2.2.length := List.length_pos.mpr herr
  refine ⟨?_, ?_, ?_⟩
  · intro p hp
    simp only [delete_items, hne, Bool.false_eq_true, reduceIte, Bool.not_true]
    exact deleteLoop_removed paths fs 0 [] p hp
  · simp only [delete_items, hne, Bool.false_eq_true, reduceIte, Bool.not_true]
    simp only [List.length_nil, Nat.add_zero, Nat.zero_add] at hcount
    omega
  · simp only [delete_items, hne, Bool.false_eq_true, reduceIte, Bool.not_true]
    exact herr

/-- C2 witness: a two-path batch with one existing file and one missing path. -/
theorem c2_delete_items_partial_failure_witness :
    ([(["a"], NodeKind.file)] : FS) = [(["a"], NodeKind.file)] ∧
      ((∀ p ∈ [(["a"] : FPath), ["b"]],
          fsExists (delete_items [(["a"], NodeKind.file)] [["a"], ["b"]] true).fs p = false) ∧
        (delete_items [(["a"], NodeKind.file)] [["a"], ["b"]] true).deletedCount
            < ([(["a"] : FPath), ["b"]]).length ∧
        (delete_items [(["a"], NodeKind.file)] [["a"], ["b"]] true).errors ≠ []) :=
  ⟨rfl,
    c2_delete_items_partial_failure [(["a"], NodeKind.file)] [["a"], ["b"]]
      (by decide) ⟨["b"], by decide, by decide⟩ ⟨["a"], by decide, by decide⟩⟩

/-- C9 counterexample: a file whose base name is the single space " " exists;
renaming it to its own base name " " is rejected with `success = False`
(`rename_item` checks `not new_name.strip()` before the same-name check), so
the claim "returns success=True for every existing path" is false. -/
theorem c9_counterexample :
    basename [" "] = " " ∧
      fsExists [(([" "] : FPath), NodeKind.file)] [" "] = true ∧
      (rename_item [(([" "] : FPath), NodeKind.file)] [" "] " " true).ok = false := by
  decide

/-- C9 (amended): for every existing path whose base name does not strip to
the empty string, renaming it to its own base name reports success with no
filesystem mutation and no confirmation request. -/
theorem c9_rename_same_name_noop (fs : FS) (p : FPath)
    (hex : fsExists fs p = true)
    (hstrip : pyStrip (basename p) ≠ "") :
    rename_item fs p (basename p) true = ⟨true, "No change in name.", fs, 0⟩ := by
  have h1 : (pyStrip (basename p) == "") = false := beq_eq_false_iff_ne.mpr hstrip
  simp [rename_item, hex, h1]

/-- C9 witness: the amended no-op rename at a concrete one-file filesystem. -/
theorem c9_rename_same_name_noop_witness :
    fsExists [((["a.txt"] : FPath), NodeKind.file)] ["a.txt"] = true ∧
      pyStrip (basename ["a.txt"]) ≠ "" ∧
      rename_item [((["a.txt"] : FPath), NodeKind.file)] ["a.txt"] (basename ["a.txt"]) true
        = ⟨true, "No change in name.", [((["a.txt"] : FPath), NodeKind.file)], 0⟩ :=
  ⟨by decide, by decide,
    c9_rename_same_name_noop [((["a.txt"] : FPath), NodeKind.file)] ["a.txt"]
      (by decide) (by decide)⟩

/-!
The clipboard invariant (claim C10): any sequence of clipboard operations of
the service, started from the initial empty clipboard of `__init__`, keeps the
clipboard either empty or a slot with a copy/cut action and a non-empty list
of paths.
-/

/-- A clipboard-affecting call to the service. -/
inductive ClipOp where
  | copyOp (paths : List FPath)
  | cutOp (paths : List FPath)
  | pasteOp (destination_dir : FPath) (answer : Bool)

/-- One service call acting on the filesystem/clipboard pair. -/
def clipStep (st : FS × Clipboard) (op : ClipOp) : FS × Clipboard :=
  match op with
  | ClipOp.copyOp ps => (st.1, copy_to_clipboard ps)
  | ClipOp.cutOp ps => (st.1, cut_to_clipboard ps)
  | ClipOp.pasteOp d a =>
    let r := paste_from_clipboard st.1 st.2 d a
    (r.fs, r.clipboard)

/-- Running a sequence of clipboard operations. -/
def runClipOps (st : FS × Clipboard) (ops : List ClipOp) : FS × Clipboard :=
  ops.foldl clipStep st

/-- The clipboard invariant: empty, or a copy/cut slot with non-empty paths. -/
def ClipInv (c : Clipboard) : Prop :=
  c = Clipboard.empty ∨
    ∃ a ps, c = Clipboard.slot a ps ∧ (a = ClipAction.copy ∨ a = ClipAction.cut) ∧ ps ≠ []

theorem clipInv_copy (ps : List FPath) : ClipInv (copy_to_clipboard ps) := by
  cases ps with
  | nil => left; rfl
  | cons p ps =>
    right
    exact ⟨ClipAction.copy, p :: ps, rfl, Or.inl rfl, by simp⟩

theorem clipInv_cut (ps : List FPath) : ClipInv (cut_to_clipboard ps) := by
  cases ps with
  | nil => left; rfl
  | cons p ps =>
    right
    exact ⟨ClipAction.cut, p :: ps, rfl, Or.inr rfl, by simp⟩

theorem clipInv_paste (fs : FS) (c : Clipboard) (d : FPath) (a : Bool)
    (h : ClipInv c) : ClipInv (paste_from_clipboard fs c d a).clipboard := by
  cases c with
  | empty => exact Or.inl rfl
  | slot act ps =>
    simp only [paste_from_clipboard]
    split
    · exact h
    · split
      · exact h
      · split
        · exact Or.inl rfl
        · exact h

theorem clipInv_step (st : FS × Clipboard) (op : ClipOp) (h : ClipInv st.2) :
    ClipInv (clipStep st op).2 := by
  cases op with
  | copyOp ps => exact clipInv_copy ps
  | cutOp ps => exact clipInv_cut ps
  | pasteOp d a => exact clipInv_paste st.1 st.2 d a h

theorem clipInv_run (ops : List ClipOp) (st : FS × Clipboard) (h : ClipInv st.2) :
    ClipInv (runClipOps st ops).2 := by
  induction ops generalizing st with
  | nil => exact h
  | cons op ops ih =>
    exact ih (clipStep st op) (clipInv_step st op h)

/-- C10: after any sequence of copy/cut/paste calls starting from the initial
empty clipboard, the clipboard is either empty or a slot whose action is copy
or cut and whose path list is non-empty; and a copy or cut of an empty
selection empties the clipboard, after which `get_clipboard_status` reports
that pasting is impossible. -/
theorem c10_clipboard_invariant (fs : FS) (ops : List ClipOp) :
    ClipInv (runClipOps (fs, Clipboard.empty) ops).2 ∧
      copy_to_clipboard [] = Clipboard.empty ∧
      cut_to_clipboard [] = Clipboard.empty ∧
      get_clipboard_status (copy_to_clipboard []) = false ∧
      get_clipboard_status (cut_to_clipboard []) = false :=
  ⟨clipInv_run ops (fs, Clipboard.empty) (Or.inl rfl), rfl, rfl, rfl, rfl⟩

/-! Lemmas about `isUnder`, `FsWf` and `fsMove`, towards claim C1. -/

theorem isUnder_iff {a : FPath} : ∀ {b : FPath}, isUnder a b = true ↔ ∃ t, b = a ++ t := by
  induction a with
  | nil =>
    intro b
    simp only [isUnder, List.nil_append, true_iff]
    exact ⟨b, rfl⟩
  | cons x xs ih =>
    intro b
    cases b with
    | nil =>
      simp only [isUnder, Bool.false_eq_true, false_iff]
      rintro ⟨t, ht⟩
      exact List.cons_ne_nil x (xs ++ t) ht.symm
    | cons y ys =>
      simp only [isUnder, Bool.and_eq_true, beq_iff_eq, ih]
      constructor
      · rintro ⟨rfl, t, rfl⟩
        exact ⟨t, rfl⟩
      · rintro ⟨t, ht⟩
        injection ht with h1 h2
        exact ⟨h1.symm, t, h2⟩

theorem isUnder_append (a t : FPath) : isUnder a (a ++ t) = true :=
  isUnder_iff.mpr ⟨t, rfl⟩

theorem fsGet_mem {fs : FS} {q : FPath} {k : NodeKind} (h : fsGet fs q = some k) :
    (q, k) ∈ fs := by
  induction fs with
  | nil => simp [fsGet] at h
  | cons e rest ih =>
    obtain ⟨q', k'⟩ := e
    by_cases hq : q' = q
    · subst hq
      simp only [fsGet, if_true, eq_self_iff_true, Option.some.injEq] at h
      subst h
      exact List.mem_cons_self _ _
    · simp only [fsGet, if_neg hq] at h
      exact List.mem_cons_of_mem _ (ih h)

theorem fsIsDir_exists {fs : FS} {q : FPath} (h : fsIsDir fs q = true) :
    fsExists fs q = true := by
  unfold fsIsDir at h
  unfold fsExists
  cases hg : fsGet fs q with
  | none => rw [hg] at h; simp at h
  | some k => simp

theorem fsIsDir_mem {fs : FS} {q : FPath} (h : fsIsDir fs q = true) :
    (q, NodeKind.dir) ∈ fs := by
  unfold fsIsDir at h
  cases hg : fsGet fs q with
  | none => rw [hg] at h; simp at h
  | some k =>
    cases k
    · rw [hg] at h; simp at h
    · exact fsGet_mem hg

theorem fsWf_ancestor {fs : FS} (hwf : FsWf fs = true) {k : FPath} {kind : NodeKind}
    (hk : (k, kind) ∈ fs) {a : FPath} (ha : a ≠ [])
    (ht : ∃ t, t ≠ [] ∧ k = a ++ t) : fsExists fs a = true := by
  obtain ⟨t, htne, rfl⟩ := ht
  simp only [FsWf, List.all_eq_true] at hwf
  have h1 := hwf (a ++ t, kind) hk
  have hlt : a.length < (a ++ t).length := by
    have : 0 < t.length := List.length_pos.mpr htne
    simp only [List.length_append]
    omega
  have h2 := h1 a.length (List.mem_range.mpr hlt)
  have hne0 : a.length ≠ 0 := fun h0 => ha (List.eq_nil_of_length_eq_zero h0)
  simp only [List.take_left, decide_eq_true_eq, Bool.or_eq_true, hne0, false_or] at h2
  exact h2

theorem fsMove_fresh_dst_get (fs : FS) (src dst : FPath)
    (hfree : fsExists fs dst = false) :
    fsGet (fsMove fs src dst) dst = fsGet fs src := by
  induction fs with
  | nil => rfl
  | cons e rest ih =>
    obtain ⟨q, kk⟩ := e
    have hq : q ≠ dst := by
      intro h
      subst h
      simp [fsExists, fsGet] at hfree
    have hrest : fsExists rest dst = false := by
      simp only [fsExists, fsGet, if_neg hq] at hfree
      exact hfree
    simp only [fsMove, List.map_cons, fsGet]
    by_cases hqs : q = src
    · subst hqs
      rw [if_pos (isUnder_refl q), List.drop_length, List.append_nil, if_pos rfl, if_pos rfl]
    · have hrk : (if isUnder src q = true then dst ++ q.drop src.length else q) ≠ dst := by
        by_cases hu : isUnder src q = true
        · obtain ⟨t, rfl⟩ := isUnder_iff.mp hu
          have htne : t ≠ [] := by
            rintro rfl
            exact hqs (List.append_nil src)
          rw [if_pos hu, List.drop_left]
          intro hcon
          have := congrArg List.length hcon
          simp only [List.length_append] at this
          exact htne (List.eq_nil_of_length_eq_zero (by omega))
        · rw [if_neg hu]
          exact hq
      rw [if_neg hrk, if_neg hqs]
      exact ih hrest

theorem fsMove_src_not_exists (fs : FS) (src dst : FPath)
    (hwf : FsWf fs = true) (hsrc : fsExists fs src = true)
    (hdst_ne : dst ≠ []) (hfree : fsExists fs dst = false) :
    fsExists (fsMove fs src dst) src = false := by
  by_contra hc
  simp only [Bool.not_eq_false] at hc
  obtain ⟨kind, hmem⟩ := fsExists_iff.mp hc
  unfold fsMove at hmem
  obtain ⟨e, he, heq⟩ := List.mem_map.mp hmem
  obtain ⟨k, kk⟩ := e
  have hkey : (if isUnder src k = true then dst ++ k.drop src.length else k) = src := by
    exact congrArg Prod.fst heq
  by_cases hu : isUnder src k = true
  · obtain ⟨t, rfl⟩ := isUnder_iff.mp hu
    rw [if_pos hu, List.drop_left] at hkey
    cases t with
    | nil =>
      rw [List.append_nil] at hkey
      subst hkey
      rw [hsrc] at hfree
      simp at hfree
    | cons x ts =>
      have hanc : fsExists fs dst = true := by
        apply fsWf_ancestor hwf he hdst_ne
        refine ⟨x :: ts ++ (x :: ts), by simp, ?_⟩
        rw [← hkey]
        simp [List.append_assoc]
      rw [hanc] at hfree
      simp at hfree
  · rw [if_neg hu] at hkey
    subst hkey
    rw [isUnder_refl] at hu
    exact hu rfl

theorem fsGet_append_left {fs ex : FS} {q : FPath} {k : NodeKind}
    (h : fsGet fs q = some k) : fsGet (fs ++ ex) q = some k := by
  induction fs with
  | nil => simp [fsGet] at h
  | cons e rest ih =>
    obtain ⟨q', k'⟩ := e
    by_cases hq : q' = q
    · subst hq
      simp only [fsGet, if_true, eq_self_iff_true, Option.some.injEq] at h ⊢
      exact h
    · simp only [fsGet, if_neg hq] at h ⊢
      exact ih h

theorem fsGet_append_none {fs ex : FS} {q : FPath}
    (h : fsGet fs q = none) : fsGet (fs ++ ex) q = fsGet ex q := by
  induction fs with
  | nil => rfl
  | cons e rest ih =>
    obtain ⟨q', k'⟩ := e
    by_cases hq : q' = q
    · subst hq
      simp [fsGet] at h
    · simp only [fsGet, if_neg hq] at h ⊢
      exact ih h

theorem fsExists_append_left {fs ex : FS} {q : FPath} (h : fsExists fs q = true) :
    fsExists (fs ++ ex) q = true := by
  unfold fsExists at h ⊢
  cases hg : fsGet fs q with
  | none => rw [hg] at h; simp at h
  | some k => rw [fsGet_append_left hg]; rfl

theorem fsIsDir_append_left {fs ex : FS} {q : FPath} (h : fsIsDir fs q = true) :
    fsIsDir (fs ++ ex) q = true := by
  unfold fsIsDir at h ⊢
  cases hg : fsGet fs q with
  | none => rw [hg] at h; simp at h
  | some k => rw [hg] at h; rw [fsGet_append_left hg]; exact h

/-- The extra entries appended by the copy branch of the paste loop all live
at or below the destination path. -/
theorem applyAction_copy_extra (fs : FS) (src dp : FPath) :
    ∃ ex, applyAction ClipAction.copy fs src dp = fs ++ ex ∧
      ∀ q k, (q, k) ∈ ex → ∃ t, q = dp ++ t := by
  unfold applyAction
  by_cases hd : fsIsDir fs src = true
  · rw [if_pos hd]
    refine ⟨_, rfl, ?_⟩
    intro q k hq
    obtain ⟨e, _, heq⟩ := List.mem_map.mp hq
    exact ⟨e.1.drop src.length, (congrArg Prod.fst heq).symm⟩
  · rw [if_neg hd]
    refine ⟨[(dp, NodeKind.file)], rfl, ?_⟩
    intro q k hq
    rcases List.mem_singleton.mp hq with heq
    exact ⟨[], by rw [List.append_nil]; exact (congrArg Prod.fst heq)⟩

/-- No suffix extension of one fresh destination path `dst ++ [b]` can equal
the other destination path `dst2 ++ [b]` when `dst ≠ dst2`, the first
destination slot is free and `dst2` is an existing directory of a well-formed
filesystem. -/
theorem fresh_join_not_under (fs : FS) (dst dst2 : FPath) (b : String)
    (hwf : FsWf fs = true) (hdiff : dst ≠ dst2)
    (hfree1 : fsExists fs (dst ++ [b]) = false)
    (hdst2 : fsIsDir fs dst2 = true) :
    ∀ t, dst2 ++ [b] ≠ (dst ++ [b]) ++ t := by
  intro t hcon
  cases t with
  | nil =>
    rw [List.append_nil] at hcon
    exact hdiff (List.append_inj_left' hcon.symm rfl)
  | cons x ts =>
    have hlen : (dst ++ [b]).length ≤ dst2.length := by
      have h2 := congrArg List.length hcon
      simp only [List.length_append, List.length_cons, List.length_nil] at h2
      simp only [List.length_append, List.length_cons, List.length_nil]
      omega
    have htake : dst2.take (dst ++ [b]).length = dst ++ [b] := by
      have h1 : (dst2 ++ [b]).take (dst ++ [b]).length = dst2.take (dst ++ [b]).length :=
        List.take_append_of_le_length hlen
      rw [hcon] at h1
      rw [List.take_left] at h1
      exact h1.symm
    by_cases heq : dst ++ [b] = dst2
    · rw [heq] at hfree1
      rw [fsIsDir_exists hdst2] at hfree1
      simp at hfree1
    · have hanc : fsExists fs (dst ++ [b]) = true := by
        apply fsWf_ancestor hwf (fsIsDir_mem hdst2) (by simp)
        refine ⟨dst2.drop (dst ++ [b]).length, ?_, ?_⟩
        · intro hdrop
          apply heq
          have := List.take_append_drop (dst ++ [b]).length dst2
          rw [hdrop, List.append_nil, htake] at this
          exact this
        · conv_lhs => rw [← List.take_append_drop (dst ++ [b]).length dst2]
          rw [htake]
      rw [hanc] at hfree1
      simp at hfree1

/-- Evaluation of `paste_from_clipboard` for a one-element clipboard whose
source exists and whose destination slot is free: one success, no errors, no
confirmation, and the clipboard is cleared exactly when the action was cut. -/
theorem paste_single_eval (fs : FS) (act : ClipAction) (p dst : FPath)
    (hp : fsExists fs p = true) (hdst : fsIsDir fs dst = true)
    (hfree : fsExists fs (dst ++ [basename p]) = false) :
    paste_from_clipboard fs (Clipboard.slot act [p]) dst true
      = ⟨true, 1, [], applyAction act fs p (dst ++ [basename p]),
          if act == ClipAction.cut then Clipboard.empty else Clipboard.slot act [p], 0⟩ := by
  simp [paste_from_clipboard, pasteLoop, pasteOne, hp, hdst, hfree]

/-- C1: clipboard semantics of cut-paste versus copy-paste.  For an existing
path `p`, two distinct existing destination directories with no entry named
`basename p`, and all confirmations granted: cut then paste succeeds, removes
`p` from its original location, places the node at `dst ++ [basename p]`, and
clears the clipboard; copy then paste succeeds, the clipboard is still
populated after the first paste, and a second paste into the other destination
succeeds as well. -/
theorem c1_clipboard_cut_copy_semantics (fs : FS) (p dst dst2 : FPath)
    (hwf : FsWf fs = true)
    (hp : fsExists fs p = true)
    (hdst : fsIsDir fs dst = true)
    (hdst2 : fsIsDir fs dst2 = true)
    (hdiff : dst ≠ dst2)
    (hfree : fsExists fs (dst ++ [basename p]) = false)
    (hfree2 : fsExists fs (dst2 ++ [basename p]) = false) :
    ((paste_from_clipboard fs (cut_to_clipboard [p]) dst true).ok = true ∧
      fsExists (paste_from_clipboard fs (cut_to_clipboard [p]) dst true).fs p = false ∧
      fsGet (paste_from_clipboard fs (cut_to_clipboard [p]) dst true).fs
          (dst ++ [basename p]) = fsGet fs p ∧
      (paste_from_clipboard fs (cut_to_clipboard [p]) dst true).clipboard
        = Clipboard.empty) ∧
    ((paste_from_clipboard fs (copy_to_clipboard [p]) dst true).ok = true ∧
      get_clipboard_status
          (paste_from_clipboard fs (copy_to_clipboard [p]) dst true).clipboard = true ∧
      (paste_from_clipboard
          (paste_from_clipboard fs (copy_to_clipboard [p]) dst true).fs
          (paste_from_clipboard fs (copy_to_clipboard [p]) dst true).clipboard
          dst2 true).ok = true) := by
  have hcut : cut_to_clipboard [p] = Clipboard.slot ClipAction.cut [p] := rfl
  have hcopy : copy_to_clipboard [p] = Clipboard.slot ClipAction.copy [p] := rfl
  have hcutEval := paste_single_eval fs ClipAction.cut p dst hp hdst hfree
  have hcopyEval := paste_single_eval fs ClipAction.copy p dst hp hdst hfree
  constructor
  · rw [hcut, hcutEval]
    refine ⟨rfl, ?_, ?_, rfl⟩
    · show fsExists (applyAction ClipAction.cut fs p (dst ++ [basename p])) p = false
      exact fsMove_src_not_exists fs p (dst ++ [basename p]) hwf hp (by simp) hfree
    · show fsGet (applyAction ClipAction.cut fs p (dst ++ [basename p]))
          (dst ++ [basename p]) = fsGet fs p
      exact fsMove_fresh_dst_get fs p (dst ++ [basename p]) hfree
  · rw [hcopy, hcopyEval]
    obtain ⟨ex, hex, hexmem⟩ := applyAction_copy_extra fs p (dst ++ [basename p])
    refine ⟨rfl, rfl, ?_⟩
    show (paste_from_clipboard (applyAction ClipAction.copy fs p (dst ++ [basename p]))
        (Clipboard.slot ClipAction.copy [p]) dst2 true).ok = true
    rw [hex]
    have hp1 : fsExists (fs ++ ex) p = true := fsExists_append_left hp
    have hdst2' : fsIsDir (fs ++ ex) dst2 = true := fsIsDir_append_left hdst2
    have hfree2' : fsExists (fs ++ ex) (dst2 ++ [basename p]) = false := by
      by_contra hc
      simp only [Bool.not_eq_false] at hc
      obtain ⟨k, hk⟩ := fsExists_iff.mp hc
      rcases List.mem_append.mp hk with hin | hin
      · rw [fsExists_iff.mpr ⟨k, hin⟩] at hfree2
        simp at hfree2
      · obtain ⟨t, ht⟩ := hexmem _ _ hin
        exact fresh_join_not_under fs dst dst2 (basename p) hwf hdiff hfree hdst2 t ht
    rw [paste_single_eval (fs ++ ex) ClipAction.copy p dst2 hp1 hdst2' hfree2']

/-- C1 witness: a file `/tmp/f` cut/copied into the distinct free directories
`/d1` and `/d2` of a concrete well-formed filesystem. -/
theorem c1_clipboard_cut_copy_semantics_witness :
    FsWf [((["tmp"] : FPath), NodeKind.dir), (["tmp", "f"], NodeKind.file),
        (["d1"], NodeKind.dir), (["d2"], NodeKind.dir)] = true ∧
      ((paste_from_clipboard
          [((["tmp"] : FPath), NodeKind.dir), (["tmp", "f"], NodeKind.file),
            (["d1"], NodeKind.dir), (["d2"], NodeKind.dir)]
          (cut_to_clipboard [["tmp", "f"]]) ["d1"] true).ok = true ∧
        fsExists (paste_from_clipboard
          [((["tmp"] : FPath), NodeKind.dir), (["tmp", "f"], NodeKind.file),
            (["d1"], NodeKind.dir), (["d2"], NodeKind.dir)]
          (cut_to_clipboard [["tmp", "f"]]) ["d1"] true).fs ["tmp", "f"] = false) := by
  have h := c1_clipboard_cut_copy_semantics
    [((["tmp"] : FPath), NodeKind.dir), (["tmp", "f"], NodeKind.file),
      (["d1"], NodeKind.dir), (["d2"], NodeKind.dir)]
    ["tmp", "f"] ["d1"] ["d2"] (by decide) (by decide) (by decide) (by decide)
    (by decide) (by decide) (by decide)
  exact ⟨by decide, h.1.1, h.1.2.1⟩

/-!
`CommandInterpreter` (src/commands.py).

The interpreter state carries the filesystem model, `current_directory`, the
home directory used by `~`-expansion and the default of `cd`, and the command
history.  A command handler returns `Except`: `.error e` stands for a Python
exception with message `e` escaping the handler, which the `try/except` of
`execute` converts into a failure triple.  `execute` itself is modelled by
`runDispatch`, parametrised by the registered command dictionary.
-/

/-- Interpreter state. -/
structure CmdState where
  fs : FS
  cwd : FPath
  home : FPath
  history : List String
  historyPos : Nat
deriving Repr

/-- A command handler: the result triple and new state, or an exception. -/
abbrev Handler :=
  CmdState → List String → Except String ((Bool × String × List String) × CmdState)

/-- Rendering of a component path back to the string form used in messages. -/
def pathStr (p : FPath) : String :=
  "/" ++ joinWith "/" p

/-- Splits a path string on `/`, dropping empty and `.` components (the
components that `os.path.normpath` erases). -/
def splitSlash (s : String) : List String :=
  (pySplit '/' s).filter (fun c => !(c == "") && !(c == "."))

/-- Resolves `..` components against a base path, as `os.path.normpath` does
for absolute paths (`..` at the root stays at the root). -/
def normSteps (base : FPath) (comps : List String) : FPath :=
  comps.foldl (fun acc c => if c = ".." then acc.dropLast else acc ++ [c]) base

/-- `CommandInterpreter._resolve_path` combined with the pathname resolution
the operating system performs on the result: `~` expansion, absolute versus
relative interpretation against `current_directory`, and normalisation.  An
unknown-user form such as `~abc` is left unexpanded by `os.path.expanduser`
and is therefore a relative component. -/
def resolvePath (st : CmdState) (s : String) : FPath :=
  if s = "" then st.cwd
  else
    let s1 :=
      if s = "~" then pathStr st.home
      else if pyStartsWith s "~/" then pathStr st.home ++ pyDrop s 1
      else s
    if pyStartsWith s1 "/" then normSteps [] (splitSlash s1)
    else normSteps st.cwd (splitSlash s1)

/-- `FileOperations.delete_item` (src/file_operations.py): `shutil.rmtree` on
a directory, `os.remove` otherwise. -/
def fsDeleteItem (fs : FS) (p : FPath) : FS :=
  if fsIsDir fs p then fsRmtree fs p else fsRemove fs p

/-- `CommandInterpreter.cmd_cd`. -/
def cmdCd : Handler := fun st args =>
  let new_dir :=
    match args with
    | [] => st.home
    | a :: _ => resolvePath st a
  if !fsExists st.fs new_dir then
    Except.ok ((false, "Directory not found: " ++ pathStr new_dir, []), st)
  else if !fsIsDir st.fs new_dir then
    Except.ok ((false, "Not a directory: " ++ pathStr new_dir, []), st)
  else
    Except.ok ((true, "Changed directory to: " ++ pathStr new_dir, []),
      { st with cwd := new_dir })

/-- `CommandInterpreter.cmd_rm`. -/
def cmdRm : Handler := fun st args =>
  if args.isEmpty then
    Except.ok ((false, "Usage: rm [-r] <path>", []), st)
  else
    let recursive := args.contains "-r" || args.contains "-rf"
    let path_args := args.filter (fun a => !(pyStartsWith a "-"))
    match path_args with
    | [] => Except.ok ((false, "No path specified", []), st)
    | a :: _ =>
      let path := resolvePath st a
      if !fsExists st.fs path then
        Except.ok ((false, "Path not found: " ++ pathStr path, []), st)
      else if fsIsDir st.fs path then
        if recursive then
          Except.ok ((true, "Removed directory: " ++ pathStr path, []),
            { st with fs := fsDeleteItem st.fs path })
        else
          Except.ok ((false, "Cannot remove directory without -r option: " ++ pathStr path, []),
            st)
      else
        Except.ok ((true, "Removed file: " ++ pathStr path, []),
          { st with fs := fsDeleteItem st.fs path })

/-- Lexer mode of the `shlex.split` model. -/
inductive SMode where
  | norm
  | inSingle
  | inDouble
deriving DecidableEq

/-- Model of POSIX-mode `shlex.split`: whitespace-separated tokens, single
quotes are literal, double quotes allow `\"` and `\\` escapes, a backslash
outside quotes escapes the next character.  An unterminated quote or a
trailing escape raises `ValueError`, whose message is the `.error` payload. -/
def shlexAux : List Char → SMode → Option (List Char) → Except String (List String)
  | [], SMode.norm, none => Except.ok []
  | [], SMode.norm, some t => Except.ok [⟨t.reverse⟩]
  | [], SMode.inSingle, _ => Except.error "No closing quotation"
  | [], SMode.inDouble, _ => Except.error "No closing quotation"
  | '\\' :: [], SMode.norm, _ => Except.error "No escaped character"
  | '\\' :: c :: cs, SMode.norm, t => shlexAux cs SMode.norm (some (c :: t.getD []))
  | '\'' :: cs, SMode.norm, t => shlexAux cs SMode.inSingle (some (t.getD []))
  | '"' :: cs, SMode.norm, t => shlexAux cs SMode.inDouble (some (t.getD []))
  | c :: cs, SMode.norm, t =>
    if c.isWhitespace then
      match t with
      | none => shlexAux cs SMode.norm none
      | some tk =>
        match shlexAux cs SMode.norm none with
        | Except.ok rest => Except.ok (⟨tk.reverse⟩ :: rest)
        | Except.error e => Except.error e
    else
      shlexAux cs SMode.norm (some (c :: t.getD []))
  | '\'' :: cs, SMode.inSingle, t => shlexAux cs SMode.norm t
  | c :: cs, SMode.inSingle, t => shlexAux cs SMode.inSingle (some (c :: t.getD []))
  | '"' :: cs, SMode.inDouble, t => shlexAux cs SMode.norm t
  | '\\' :: [], SMode.inDouble, _ => Except.error "No closing quotation"
  | '\\' :: c :: cs, SMode.inDouble, t =>
    if c = '"' || c = '\\' then shlexAux cs SMode.inDouble (some (c :: t.getD []))
    else shlexAux cs SMode.inDouble (some (c :: '\\' :: t.getD []))
  | c :: cs, SMode.inDouble, t => shlexAux cs SMode.inDouble (some (c :: t.getD []))

/-- Model of `shlex.split` on a command line. -/
def shlexSplit (s : String) : Except String (List String) :=
  shlexAux s.data SMode.norm none

/-- `CommandInterpreter.execute`, parametrised by the registered command
dictionary `cmds` (the `self.commands` dict built in `__init__`).  A blank
line short-circuits; otherwise the line is recorded in the history and the
body of the `try` block runs: `shlex.split`, `args[0].lower()` (whose
`IndexError` on an empty token list the catch-all turns into a failure), the
unknown-command branch, and the handler call.  Any `.error` of the tokenizer
or the handler becomes `(False, "Error: " + str(e), [])`. -/
def runDispatch (cmds : String → Option Handler) (st : CmdState) (command_line : String) :
    (Bool × String × List String) × CmdState :=
  if pyStrip command_line = "" then ((true, "", []), st)
  else
    let st1 := { st with history := st.history ++ [command_line],
                         historyPos := st.history.length + 1 }
    match shlexSplit command_line with
    | Except.error e => ((false, "Error: " ++ e, []), st1)
    | Except.ok [] => ((false, "Error: list index out of range", []), st1)
    | Except.ok (c :: rest) =>
      let command := pyLower c
      match cmds command with
      | none => ((false, "Command not found: " ++ command, []), st1)
      | some h =>
        match h st1 rest with
        | Except.ok r => r
        | Except.error e => ((false, "Error: " ++ e, []), st1)

/-- C6: `execute` never lets an exception escape — its result is always a
`(success, message, output_lines)` triple, by totality of `runDispatch`, and
each of the three error sources is converted into a failure triple: a
tokenization error of `shlex.split`, an unknown command name, and an exception
raised inside whichever command handler is registered. -/
theorem c6_execute_error_containment (cmds : String → Option Handler) (st : CmdState)
    (command_line : String) :
    (∀ e, pyStrip command_line ≠ "" → shlexSplit command_line = Except.error e →
      (runDispatch cmds st command_line).1 = (false, "Error: " ++ e, [])) ∧
    (∀ c rest, pyStrip command_line ≠ "" →
      shlexSplit command_line = Except.ok (c :: rest) → cmds (pyLower c) = none →
      (runDispatch cmds st command_line).1
        = (false, "Command not found: " ++ pyLower c, [])) ∧
    (∀ c rest h e, pyStrip command_line ≠ "" →
      shlexSplit command_line = Except.ok (c :: rest) → cmds (pyLower c) = some h →
      h { st with history := st.history ++ [command_line],
                  historyPos := st.history.length + 1 } rest = Except.error e →
      (runDispatch cmds st command_line).1 = (false, "Error: " ++ e, [])) := by
  refine ⟨?_, ?_, ?_⟩
  · intro e hne htok
    simp only [runDispatch, if_neg hne, htok]
  · intro c rest hne htok hcmd
    simp only [runDispatch, if_neg hne, htok, hcmd]
  · intro c rest h e hne htok hcmd hraise
    simp only [runDispatch, if_neg hne, htok, hcmd, hraise]

/-- C6 witness: an unbalanced quote, an unregistered command, and a handler
that raises, each turned into a failure triple. -/
theorem c6_execute_error_containment_witness :
    (runDispatch (fun _ => none) ⟨[], [], [], [], 0⟩ "cd \"x").1
        = (false, "Error: No closing quotation", []) ∧
      (runDispatch (fun n => if n = "cd" then some cmdCd else none)
          ⟨[], [], [], [], 0⟩ "frobnicate").1
        = (false, "Command not found: frobnicate", []) ∧
      (runDispatch (fun _ => some (fun _ _ => Except.error "boom"))
          ⟨[], [], [], [], 0⟩ "anything").1
        = (false, "Error: boom", []) :=
  ⟨(c6_execute_error_containment (fun _ => none) ⟨[], [], [], [], 0⟩ "cd \"x").1
      "No closing quotation" (by decide) rfl,
    (c6_execute_error_containment (fun n => if n = "cd" then some cmdCd else none)
        ⟨[], [], [], [], 0⟩ "frobnicate").2.1 "frobnicate" [] (by decide) rfl rfl,
    (c6_execute_error_containment (fun _ => some (fun _ _ => Except.error "boom"))
        ⟨[], [], [], [], 0⟩ "anything").2.2 "anything" [] (fun _ _ => Except.error "boom")
      "boom" (by decide) rfl rfl rfl⟩

/-- C7: `cmd_cd` on an argument resolving to a missing path or to a non-
directory returns `success = False` and leaves the interpreter state — in
particular `current_directory` — unchanged. -/
theorem c7_cd_failure_preserves_cwd (st : CmdState) (a : String) (rest : List String)
    (h : fsExists st.fs (resolvePath st a) = false ∨
      fsIsDir st.fs (resolvePath st a) = false) :
    ∃ m, cmdCd st (a :: rest) = Except.ok ((false, m, []), st) := by
  unfold cmdCd
  by_cases hex : fsExists st.fs (resolvePath st a) = true
  · have hdir : fsIsDir st.fs (resolvePath st a) = false := by
      rcases h with h | h
      · rw [hex] at h; simp at h
      · exact h
    exact ⟨"Not a directory: " ++ pathStr (resolvePath st a), by simp [hex, hdir]⟩
  · have hex' : fsExists st.fs (resolvePath st a) = false := by
      simpa using hex
    exact ⟨"Directory not found: " ++ pathStr (resolvePath st a), by simp [hex']⟩

/-- C7 witness: `cd nosuch` against an empty filesystem fails and keeps the
state. -/
theorem c7_cd_failure_preserves_cwd_witness :
    (fsExists ([] : FS) (resolvePath ⟨[], ["home"], ["home"], [], 0⟩ "nosuch") = false ∨
      fsIsDir ([] : FS) (resolvePath ⟨[], ["home"], ["home"], [], 0⟩ "nosuch") = false) ∧
      ∃ m, cmdCd ⟨[], ["home"], ["home"], [], 0⟩ ["nosuch"]
        = Except.ok ((false, m, []), ⟨[], ["home"], ["home"], [], 0⟩) :=
  ⟨Or.inl (by decide),
    c7_cd_failure_preserves_cwd ⟨[], ["home"], ["home"], [], 0⟩ "nosuch" []
      (Or.inl (by decide))⟩

/-- C8: `cmd_rm` on an existing directory without an explicit `-r` / `-rf`
flag returns `success = False` and performs no deletion (the state, and with
it the filesystem, is unchanged). -/
theorem c8_rm_requires_recursive_flag (st : CmdState) (args : List String)
    (a : String) (pa : List String)
    (hr : !args.contains "-r" ∧ !args.contains "-rf")
    (hpa : args.filter (fun x => !(pyStartsWith x "-")) = a :: pa)
    (hdir : fsIsDir st.fs (resolvePath st a) = true) :
    cmdRm st args
      = Except.ok ((false,
          "Cannot remove directory without -r option: " ++ pathStr (resolvePath st a), []),
        st) := by
  obtain ⟨hr1, hr2⟩ := hr
  have hargs : args.isEmpty = false := by
    cases hargs0 : args with
    | nil => rw [hargs0] at hpa; simp [List.filter] at hpa
    | cons x xs => rfl
  have hrec : (args.contains "-r" || args.contains "-rf") = false := by
    simp only [Bool.not_eq_true'] at hr1 hr2
    rw [hr1, hr2]
    rfl
  have hex : fsExists st.fs (resolvePath st a) = true := fsIsDir_exists hdir
  simp only [cmdRm, hargs, Bool.false_eq_true, reduceIte, hpa, hrec, hex, hdir,
    Bool.not_true]

/-- C8 witness: `rm d` on an existing directory `/d` without a recursive flag
fails and leaves the filesystem untouched. -/
theorem c8_rm_requires_recursive_flag_witness :
    (!(["d"] : List String).contains "-r" ∧ !(["d"] : List String).contains "-rf") ∧
      cmdRm ⟨[((["d"] : FPath), NodeKind.dir)], [], [], [], 0⟩ ["d"]
        = Except.ok ((false,
            "Cannot remove directory without -r option: "
              ++ pathStr (resolvePath ⟨[((["d"] : FPath), NodeKind.dir)], [], [], [], 0⟩ "d"),
            []),
          ⟨[((["d"] : FPath), NodeKind.dir)], [], [], [], 0⟩) :=
  ⟨⟨by decide, by decide⟩,
    c8_rm_requires_recursive_flag ⟨[((["d"] : FPath), NodeKind.dir)], [], [], [], 0⟩
      ["d"] "d" [] ⟨by decide, by decide⟩ (by decide) (by decide)⟩

/-!
`MainWindow._handle_llm_response` (src/automanager/app_window.py).

The handler splits the stripped response on newlines, scans for the first
line that starts (after stripping) with `FOUND_FILES_JSON:` and whose payload
contains a `[` with a later `]`, slices that bracketed candidate out, and
parses it with `json.loads`.  `json.loads` is modelled by `jsonLoads`, a
parser of the JSON grammar (null, booleans, numbers, strings with escapes,
arrays, objects) returning `none` for a `json.JSONDecodeError`.  The four
observable outcomes of the handler are modelled by `LLMOutcome`: driving the
file-browser selection, the logged warning for valid JSON that is not a list
of strings, the logged `JSONDecodeError`, and the no-candidate status-bar
message.  The handler is a total function, which is the model of "does not
raise": every branch, including both `except` clauses, returns an outcome.
-/

/-- The marker scanned for in LLM responses. -/
def foundFilesTag : String := "FOUND_FILES_JSON:"

/-- First index of a character in a character list (`str.find`). -/
def charIdx (c : Char) : List Char → Option Nat
  | [] => none
  | x :: xs => if x = c then some 0 else (charIdx c xs).map (· + 1)

/-- Last index of a character in a character list (`str.rfind`). -/
def charIdxLast (c : Char) (l : List Char) : Option Nat :=
  (charIdx c l.reverse).map (fun i => l.length - 1 - i)

/-- Python slicing `s[i:j]` for `0 ≤ i ≤ j`. -/
def pySlice (s : String) (i j : Nat) : String :=
  ⟨(s.data.drop i).take (j - i)⟩

/-- The per-line candidate extraction of `_handle_llm_response`: a stripped
line starting with the marker whose payload holds a `[` with a later `]`
yields the bracketed slice. -/
def lineCandidate (line : String) : Option String :=
  let t := pyStrip line
  if pyStartsWith t foundFilesTag then
    let json_part := pyStrip (pyDrop t foundFilesTag.length)
    match charIdx '[' json_part.data, charIdxLast ']' json_part.data with
    | some start_index, some end_index =>
      if start_index < end_index then
        some (pySlice json_part start_index (end_index + 1))
      else none
    | _, _ => none
  else none

/-- The line scan with its `break` on the first candidate. -/
def extractFromLines : List String → Option String
  | [] => none
  | l :: ls =>
    match lineCandidate l with
    | some c => some c
    | none => extractFromLines ls

/-- The candidate selection over the whole response text. -/
def extractCandidate (resp : String) : Option String :=
  extractFromLines (pySplit '\n' (pyStrip resp))

/-- JSON values, as produced by `json.loads` (numbers kept as raw text, which
is all the handler needs). -/
inductive JsonVal where
  | jnull
  | jbool (b : Bool)
  | jnum (raw : List Char)
  | jstr (s : String)
  | jarr (items : List JsonVal)
  | jobj (fields : List (String × JsonVal))

/-- JSON whitespace skipping. -/
def skipWs (cs : List Char) : List Char :=
  cs.dropWhile (fun c => c = ' ' || c = '\t' || c = '\n' || c = '\r')

/-- Value of one hexadecimal digit. -/
def hexVal (c : Char) : Option Nat :=
  if '0' ≤ c && c ≤ '9' then some (c.toNat - 48)
  else if 'a' ≤ c && c ≤ 'f' then some (c.toNat - 87)
  else if 'A' ≤ c && c ≤ 'F' then some (c.toNat - 55)
  else none

/-- Parses the body of a JSON string after the opening quote, handling the
standard escapes; returns the content and the remainder after the closing
quote, or `none` on an unterminated string or invalid escape. -/
def parseJStr : List Char → Option (List Char × List Char)
  | [] => none
  | '"' :: cs => some ([], cs)
  | '\\' :: [] => none
  | '\\' :: e :: cs =>
    if e = '"' then (parseJStr cs).map (fun r => ('"' :: r.1, r.2))
    else if e = '\\' then (parseJStr cs).map (fun r => ('\\' :: r.1, r.2))
    else if e = '/' then (parseJStr cs).map (fun r => ('/' :: r.1, r.2))
    else if e = 'b' then (parseJStr cs).map (fun r => (Char.ofNat 8 :: r.1, r.2))
    else if e = 'f' then (parseJStr cs).map (fun r => (Char.ofNat 12 :: r.1, r.2))
    else if e = 'n' then (parseJStr cs).map (fun r => ('\n' :: r.1, r.2))
    else if e = 'r' then (parseJStr cs).map (fun r => ('\r' :: r.1, r.2))
    else if e = 't' then (parseJStr cs).map (fun r => ('\t' :: r.1, r.2))
    else if e = 'u' then
      match cs with
      | h1 :: h2 :: h3 :: h4 :: cs2 =>
        match hexVal h1, hexVal h2, hexVal h3, hexVal h4 with
        | some a, some b, some c, some d =>
          (parseJStr cs2).map
            (fun r => (Char.ofNat (((a * 16 + b) * 16 + c) * 16 + d) :: r.1, r.2))
        | _, _, _, _ => none
      | _ => none
    else none
  | c :: cs => (parseJStr cs).map (fun r => (c :: r.1, r.2))

/-- Characters admissible inside a JSON number. -/
def isNumChar (c : Char) : Bool :=
  c.isDigit || c = '-' || c = '+' || c = '.' || c = 'e' || c = 'E'

mutual

/-- Fuel-indexed recursive-descent parser for one JSON value. -/
def parseJVal : Nat → List Char → Option (JsonVal × List Char)
  | 0, _ => none
  | Nat.succ fuel, cs =>
    match skipWs cs with
    | [] => none
    | '"' :: rest => (parseJStr rest).map (fun r => (JsonVal.jstr ⟨r.1⟩, r.2))
    | 'n' :: 'u' :: 'l' :: 'l' :: rest => some (JsonVal.jnull, rest)
    | 't' :: 'r' :: 'u' :: 'e' :: rest => some (JsonVal.jbool true, rest)
    | 'f' :: 'a' :: 'l' :: 's' :: 'e' :: rest => some (JsonVal.jbool false, rest)
    | '[' :: rest =>
      match skipWs rest with
      | ']' :: rest2 => some (JsonVal.jarr [], rest2)
      | rest2 => (parseJArrItems fuel rest2).map (fun r => (JsonVal.jarr r.1, r.2))
    | c :: rest =>
      if c = Char.ofNat 123 then
        match skipWs rest with
        | c2 :: rest2 =>
          if c2 = Char.ofNat 125 then some (JsonVal.jobj [], rest2)
          else (parseJObjFields fuel (c2 :: rest2)).map (fun r => (JsonVal.jobj r.1, r.2))
        | [] => none
      else if c = '-' || c.isDigit then
        let numChars := (c :: rest).takeWhile isNumChar
        if numChars.any Char.isDigit then
          some (JsonVal.jnum numChars, (c :: rest).dropWhile isNumChar)
        else none
      else none

/-- Items of a JSON array after the opening bracket (non-empty case). -/
def parseJArrItems : Nat → List Char → Option (List JsonVal × List Char)
  | 0, _ => none
  | Nat.succ fuel, cs =>
    match parseJVal fuel cs with
    | none => none
    | some (v, rest) =>
      match skipWs rest with
      | ',' :: rest2 => (parseJArrItems fuel rest2).map (fun r => (v :: r.1, r.2))
      | ']' :: rest2 => some ([v], rest2)
      | _ => none

/-- Fields of a JSON object after the opening brace (non-empty case). -/
def parseJObjFields : Nat → List Char → Option (List (String × JsonVal) × List Char)
  | 0, _ => none
  | Nat.succ fuel, cs =>
    match skipWs cs with
    | '"' :: rest =>
      match parseJStr rest with
      | none => none
      | some (key, rest2) =>
        match skipWs rest2 with
        | ':' :: rest3 =>
          match parseJVal fuel rest3 with
          | none => none
          | some (v, rest4) =>
            match skipWs rest4 with
            | ',' :: rest5 =>
              (parseJObjFields fuel rest5).map (fun r => ((⟨key⟩, v) :: r.1, r.2))
            | c :: rest5 =>
              if c = Char.ofNat 125 then some ([(⟨key⟩, v)], rest5) else none
            | [] => none
        | _ => none
    | _ => none

end

/-- Model of `json.loads`: parse one value and require only whitespace after
it; `none` models `json.JSONDecodeError`. -/
def jsonLoads (s : String) : Option JsonVal :=
  match parseJVal (2 * s.data.length + 2) s.data with
  | some (v, rest) => if (skipWs rest).isEmpty then some v else none
  | none => none

/-- The `isinstance(found_paths, list) and all(isinstance(p, str) ...)` check:
the parsed value as a list of strings, if it is one. -/
def asStrList : JsonVal → Option (List String)
  | JsonVal.jarr items => allStrings items
  | _ => none
where
  allStrings : List JsonVal → Option (List String)
    | [] => some []
    | JsonVal.jstr s :: rest => (allStrings rest).map (fun l => s :: l)
    | _ => none

/-- Observable outcome of `_handle_llm_response` on a response text. -/
inductive LLMOutcome where
  | selected (paths : List String)
  | warnedNotStrList
  | loggedParseError
  | noAction
deriving DecidableEq, Repr

/-- `MainWindow._handle_llm_response`, as the outcome it produces. -/
def handleLLMResponse (resp : String) : LLMOutcome :=
  match extractCandidate resp with
  | none => LLMOutcome.noAction
  | some cand =>
    match jsonLoads cand with
    | none => LLMOutcome.loggedParseError
    | some v =>
      match asStrList v with
      | some ps => LLMOutcome.selected ps
      | none => LLMOutcome.warnedNotStrList

/-- C3: a response carrying the line
`FOUND_FILES_JSON: ["/a/b.txt","/c/d.txt"]` drives file selection with
exactly `["/a/b.txt", "/c/d.txt"]`; and whenever the extracted candidate is
malformed JSON (`json.loads` fails), the outcome is the logged decode error —
no selection — and the handler, being a total function, does not raise. -/
theorem c3_found_files_json_extraction :
    handleLLMResponse "FOUND_FILES_JSON: [\"/a/b.txt\",\"/c/d.txt\"]"
        = LLMOutcome.selected ["/a/b.txt", "/c/d.txt"] ∧
      ∀ resp cand, extractCandidate resp = some cand → jsonLoads cand = none →
        handleLLMResponse resp = LLMOutcome.loggedParseError := by
  refine ⟨rfl, ?_⟩
  intro resp cand hex hparse
  simp only [handleLLMResponse, hex, hparse]

/-- C3 witness: the malformed candidate `[oops]` is extracted, fails to
parse, and produces the logged-error outcome. -/
theorem c3_found_files_json_extraction_witness :
    extractCandidate "FOUND_FILES_JSON: [oops]" = some "[oops]" ∧
      jsonLoads "[oops]" = none ∧
      handleLLMResponse "FOUND_FILES_JSON: [oops]" = LLMOutcome.loggedParseError :=
  ⟨rfl, rfl,
    (c3_found_files_json_extraction).2 "FOUND_FILES_JSON: [oops]" "[oops]" rfl rfl⟩

/-- C4 counterexample: with a malformed bracketed payload on the first
`FOUND_FILES_JSON:` line and a well-formed JSON array on a later one, the
handler stops at the first bracketed candidate and reports a decode error
instead of using the later well-formed array, contradicting the claim that
the first well-formed JSON array found anywhere in the response is used. -/
theorem c4_counterexample :
    handleLLMResponse "FOUND_FILES_JSON: [oops]\nFOUND_FILES_JSON: [\"/a/b.txt\"]"
        = LLMOutcome.loggedParseError ∧
      handleLLMResponse "FOUND_FILES_JSON: [oops]\nFOUND_FILES_JSON: [\"/a/b.txt\"]"
        ≠ LLMOutcome.selected ["/a/b.txt"] :=
  ⟨rfl, by decide⟩

/-- C4 (amended): the scan takes the first `FOUND_FILES_JSON:` line whose
payload contains a bracketed `[...]` slice — well-formed or not — and only
that candidate is ever parsed; prefixed lines without such a bracket pair are
skipped, so a later line is used exactly when every earlier line yields no
candidate. -/
theorem c4_first_bracketed_candidate_wins (pre : List String) (l : String)
    (post : List String) (c : String)
    (hpre : ∀ x ∈ pre, lineCandidate x = none)
    (hl : lineCandidate l = some c) :
    extractFromLines (pre ++ l :: post) = some c ∧
      handleLLMResponse "FOUND_FILES_JSON: oops\nFOUND_FILES_JSON: [\"/a/b.txt\"]"
        = LLMOutcome.selected ["/a/b.txt"] := by
  refine ⟨?_, rfl⟩
  induction pre with
  | nil => simp only [List.nil_append, extractFromLines, hl]
  | cons x xs ih =>
    have hx : lineCandidate x = none := hpre x (List.mem_cons_self x xs)
    simp only [List.cons_append, extractFromLines, hx]
    exact ih (fun y hy => hpre y (List.mem_cons_of_mem x hy))

/-- C4 witness: a leading line with no bracketed payload is skipped and the
candidate of the next line is extracted. -/
theorem c4_first_bracketed_candidate_wins_witness :
    (∀ x ∈ ["FOUND_FILES_JSON: oops"], lineCandidate x = none) ∧
      lineCandidate "FOUND_FILES_JSON: [\"/a/b.txt\"]" = some "[\"/a/b.txt\"]" ∧
      extractFromLines
          (["FOUND_FILES_JSON: oops"] ++ "FOUND_FILES_JSON: [\"/a/b.txt\"]" :: [])
        = some "[\"/a/b.txt\"]" :=
  ⟨by decide, rfl,
    (c4_first_bracketed_candidate_wins ["FOUND_FILES_JSON: oops"]
      "FOUND_FILES_JSON: [\"/a/b.txt\"]" [] "[\"/a/b.txt\"]" (by decide) rfl).1⟩

/-!
`MetadataService` (src/automanager/core/metadata_service.py).

The SQLite table `file_metadata (file_path PRIMARY KEY, tags, notes,
last_updated)` is modelled as an association list from path keys to rows;
`CURRENT_TIMESTAMP` is a `Nat` argument supplied per call.  Both calls of the
claims use the same `file_path` argument, so `os.path.abspath` — identical on
identical inputs — is dropped and the path itself is the key.  The returned
boolean records whether an INSERT or UPDATE statement was executed; database
errors are not modelled (the connection is available). -/

/-- A row of the `file_metadata` table. -/
structure MetaRow where
  tags : String
  notes : String
  lastUpdated : Nat
deriving DecidableEq, Repr

/-- The `file_metadata` table. -/
abbrev MetaDB := List (String × MetaRow)

/-- Primary-key lookup. -/
def dbGet : MetaDB → String → Option MetaRow
  | [], _ => none
  | (k, r) :: rest, p => if k = p then some r else dbGet rest p

/-- The `INSERT` statement of `save_metadata`. -/
def dbInsert (db : MetaDB) (path : String) (r : MetaRow) : MetaDB :=
  db ++ [(path, r)]

/-- The `UPDATE ... WHERE file_path = ?` statement of `save_metadata`. -/
def dbUpdate (db : MetaDB) (path : String) (r : MetaRow) : MetaDB :=
  db.map (fun e => if e.1 = path then (path, r) else e)

/-- The tags-column decoding of `get_metadata`:
`row['tags'].split(',') if row['tags'] else []`. -/
def tagsSplit (s : String) : List String :=
  if s = "" then [] else pySplit ',' s

/-- `MetadataService.get_metadata`: the `(tags list, notes)` dict, or `None`
when no row exists. -/
def get_metadata (db : MetaDB) (path : String) : Option (List String × String) :=
  (dbGet db path).map (fun r => (tagsSplit r.tags, r.notes))

/-- The tag normalisation used by `save_metadata`:
`",".join(tag.strip() for tag in tags if tag.strip())`. -/
def normTags (tags : List String) : String :=
  joinWith "," ((tags.map pyStrip).filter (fun t => !(t == "")))

/-- `MetadataService.save_metadata`.  Returns the new table and whether a
write (INSERT or UPDATE) was executed.  The update branch compares the
normalised new tags against `",".join` of the decoded stored tags and the new
note text against the stored note, updates only the changed columns together
with `last_updated`, and performs no statement at all when nothing changed. -/
def save_metadata (db : MetaDB) (now : Nat) (path : String)
    (tags : Option (List String)) (note_text : Option String) : MetaDB × Bool :=
  match dbGet db path with
  | none =>
    let tags_to_save := match tags with | some ts => normTags ts | none => ""
    let note_to_save := note_text.getD ""
    (dbInsert db path ⟨tags_to_save, note_to_save, now⟩, true)
  | some row =>
    let current_tags_str := joinWith "," (tagsSplit row.tags)
    let tagChange : Option String :=
      match tags with
      | none => none
      | some ts =>
        let new_tags_str := normTags ts
        if new_tags_str = current_tags_str then none else some new_tags_str
    let noteChange : Option String :=
      match note_text with
      | none => none
      | some n => if n = row.notes then none else some n
    match tagChange, noteChange with
    | none, none => (db, false)
    | tc, nc => (dbUpdate db path ⟨tc.getD row.tags, nc.getD row.notes, now⟩, true)

theorem splitCharList_ne_nil (sep : Char) (cs : List Char) :
    splitCharList sep cs ≠ [] := by
  induction cs with
  | nil => simp [splitCharList]
  | cons c cs ih =>
    simp only [splitCharList]
    cases h : splitCharList sep cs with
    | nil => exact absurd h ih
    | cons p ps =>
      dsimp only
      by_cases hc : c = sep
      · rw [if_pos hc]; simp
      · rw [if_neg hc]; simp

/-- Inverse of `splitCharList`: joining with the separator. -/
def joinCharList (sep : Char) : List (List Char) → List Char
  | [] => []
  | [x] => x
  | x :: y :: ys => x ++ sep :: joinCharList sep (y :: ys)

theorem joinCharList_splitCharList (sep : Char) (cs : List Char) :
    joinCharList sep (splitCharList sep cs) = cs := by
  induction cs with
  | nil => rfl
  | cons c cs ih =>
    simp only [splitCharList]
    cases h : splitCharList sep cs with
    | nil => exact absurd h (splitCharList_ne_nil sep cs)
    | cons p ps =>
      rw [h] at ih
      dsimp only
      by_cases hc : c = sep
      · rw [if_pos hc]
        show [] ++ sep :: joinCharList sep (p :: ps) = c :: cs
        rw [List.nil_append, ih, hc]
      · rw [if_neg hc]
        cases ps with
        | nil =>
          simp only [joinCharList] at ih ⊢
          rw [ih]
        | cons q qs =>
          simp only [joinCharList] at ih ⊢
          rw [List.cons_append, ih]

theorem joinWith_map_mk (sep : Char) (ls : List (List Char)) :
    joinWith (⟨[sep]⟩ : String) (ls.map (fun l => (⟨l⟩ : String)))
      = ⟨joinCharList sep ls⟩ := by
  induction ls with
  | nil => rfl
  | cons x xs ih =>
    cases xs with
    | nil => rfl
    | cons y ys =>
      simp only [List.map_cons, joinWith, joinCharList] at ih ⊢
      rw [ih]
      show String.mk ((x ++ [sep]) ++ joinCharList sep (y :: ys))
        = String.mk (x ++ sep :: joinCharList sep (y :: ys))
      rw [List.append_assoc]
      rfl

theorem joinWith_tagsSplit (s : String) : joinWith "," (tagsSplit s) = s := by
  unfold tagsSplit
  by_cases h : s = ""
  · rw [if_pos h, h]
    rfl
  · rw [if_neg h]
    unfold pySplit
    rw [show ("," : String) = (⟨[',']⟩ : String) from rfl]
    rw [joinWith_map_mk, joinCharList_splitCharList]

theorem dbGet_insert_self {db : MetaDB} {path : String} {r : MetaRow}
    (h : dbGet db path = none) : dbGet (dbInsert db path r) path = some r := by
  induction db with
  | nil => simp [dbInsert, dbGet]
  | cons e rest ih =>
    obtain ⟨k, row⟩ := e
    by_cases hk : k = path
    · subst hk
      simp [dbGet] at h
    · simp only [dbGet, if_neg hk] at h
      simp only [dbInsert, List.cons_append, dbGet, if_neg hk]
      exact ih h

theorem dbGet_update_self {db : MetaDB} {path : String} {row r : MetaRow}
    (h : dbGet db path = some row) : dbGet (dbUpdate db path r) path = some r := by
  induction db with
  | nil => simp [dbGet] at h
  | cons e rest ih =>
    obtain ⟨k, row'⟩ := e
    by_cases hk : k = path
    · subst hk
      have h1 : dbUpdate ((k, row') :: rest) k r = (k, r) :: dbUpdate rest k r := by
        simp [dbUpdate]
      rw [h1]
      simp [dbGet]
    · simp only [dbGet, if_neg hk] at h
      have h1 : dbUpdate ((k, row') :: rest) path r = (k, row') :: dbUpdate rest path r := by
        simp [dbUpdate, hk]
      rw [h1]
      simp only [dbGet, if_neg hk]
      exact ih h

/-- When the stored row already agrees with the arguments (normalised tags
equal to the join of the decoded stored tags, note equal to the stored note),
`save_metadata` executes no statement and leaves the table unchanged. -/
theorem save_metadata_noop (db : MetaDB) (now : Nat) (path : String)
    (tags : Option (List String)) (note_text : Option String) (row : MetaRow)
    (hd : dbGet db path = some row)
    (htags : ∀ ts, tags = some ts → normTags ts = joinWith "," (tagsSplit row.tags))
    (hnote : ∀ n, note_text = some n → n = row.notes) :
    save_metadata db now path tags note_text = (db, false) := by
  rcases tags with _ | ts
  · rcases note_text with _ | n
    · simp [save_metadata, hd]
    · have hn := hnote n rfl
      simp [save_metadata, hd, hn]
  · have ht := htags ts rfl
    rcases note_text with _ | n
    · simp [save_metadata, hd, ht]
    · have hn := hnote n rfl
      simp [save_metadata, hd, ht, hn]

/-- After any `save_metadata` call, the stored row at the path agrees with the
arguments of that call in the sense needed by `save_metadata_noop`. -/
theorem save_metadata_establishes (db : MetaDB) (now : Nat) (path : String)
    (tags : Option (List String)) (note_text : Option String) :
    ∃ row1, dbGet (save_metadata db now path tags note_text).1 path = some row1 ∧
      (∀ ts, tags = some ts → normTags ts = joinWith "," (tagsSplit row1.tags)) ∧
      (∀ n, note_text = some n → n = row1.notes) := by
  cases hd : dbGet db path with
  | none =>
    have hres : (save_metadata db now path tags note_text).1
        = dbInsert db path ⟨(match tags with | some ts => normTags ts | none => ""),
            note_text.getD "", now⟩ := by
      simp [save_metadata, hd]
    refine ⟨_, by rw [hres]; exact dbGet_insert_self hd, ?_, ?_⟩
    · rintro ts rfl
      exact (joinWith_tagsSplit (normTags ts)).symm
    · rintro n rfl
      rfl
  | some row =>
    rcases tags with _ | ts
    · rcases note_text with _ | n
      · exact ⟨row, by simp [save_metadata, hd, hd], by rintro ts ⟨⟩, by rintro n ⟨⟩⟩
      · by_cases hn : n = row.notes
        · refine ⟨row, by simp [save_metadata, hd, hn], by rintro ts ⟨⟩, ?_⟩
          rintro m hm
          injection hm with hm2
          rw [← hm2]
          exact hn
        · have hres : (save_metadata db now path none (some n)).1
              = dbUpdate db path ⟨row.tags, n, now⟩ := by
            simp [save_metadata, hd, hn]
          refine ⟨⟨row.tags, n, now⟩, by rw [hres]; exact dbGet_update_self hd,
            by rintro ts ⟨⟩, ?_⟩
          rintro m hm
          injection hm with hm2
          exact hm2.symm
    · by_cases ht : normTags ts = joinWith "," (tagsSplit row.tags)
      · rcases note_text with _ | n
        · refine ⟨row, by simp [save_metadata, hd, ht], ?_, by rintro n ⟨⟩⟩
          rintro ts' hts
          injection hts with hts2
          rw [← hts2]
          exact ht
        · by_cases hn : n = row.notes
          · refine ⟨row, by simp [save_metadata, hd, ht, hn], ?_, ?_⟩
            · rintro ts' hts
              injection hts with hts2
              rw [← hts2]
              exact ht
            · rintro m hm
              injection hm with hm2
              rw [← hm2]
              exact hn
          · have hres : (save_metadata db now path (some ts) (some n)).1
                = dbUpdate db path ⟨row.tags, n, now⟩ := by
              simp [save_metadata, hd, ht, hn]
            refine ⟨⟨row.tags, n, now⟩, by rw [hres]; exact dbGet_update_self hd, ?_, ?_⟩
            · rintro ts' hts
              injection hts with hts2
              rw [← hts2]
              exact ht
            · rintro m hm
              injection hm with hm2
              exact hm2.symm
      · rcases note_text with _ | n
        · have hres : (save_metadata db now path (some ts) none).1
              = dbUpdate db path ⟨normTags ts, row.notes, now⟩ := by
            simp [save_metadata, hd, ht]
          refine ⟨⟨normTags ts, row.notes, now⟩, by rw [hres]; exact dbGet_update_self hd,
            ?_, by rintro n ⟨⟩⟩
          rintro ts' hts
          injection hts with hts2
          rw [← hts2]
          exact (joinWith_tagsSplit (normTags ts)).symm
        · by_cases hn : n = row.notes
          · have hres : (save_metadata db now path (some ts) (some n)).1
                = dbUpdate db path ⟨normTags ts, row.notes, now⟩ := by
              simp [save_metadata, hd, ht, hn]
            refine ⟨⟨normTags ts, row.notes, now⟩, by rw [hres]; exact dbGet_update_self hd,
              ?_, ?_⟩
            · rintro ts' hts
              injection hts with hts2
              rw [← hts2]
              exact (joinWith_tagsSplit (normTags ts)).symm
            · rintro m hm
              injection hm with hm2
              rw [← hm2]
              exact hn
          · have hres : (save_metadata db now path (some ts) (some n)).1
                = dbUpdate db path ⟨normTags ts, n, now⟩ := by
              simp [save_metadata, hd, ht, hn]
            refine ⟨⟨normTags ts, n, now⟩, by rw [hres]; exact dbGet_update_self hd,
              ?_, ?_⟩
            · rintro ts' hts
              injection hts with hts2
              rw [← hts2]
              exact (joinWith_tagsSplit (normTags ts)).symm
            · rintro m hm
              injection hm with hm2
              exact hm2.symm

/-- C5: saving metadata twice with identical tag/note arguments performs no
database write on the second call — no INSERT and no UPDATE is executed (the
write flag is `false`) and the table, including `last_updated`, is exactly the
one left by the first call, whatever timestamp the second call runs at. -/
theorem c5_save_metadata_second_call_no_write (db : MetaDB) (now now2 : Nat)
    (path : String) (tags : Option (List String)) (note_text : Option String) :
    save_metadata (save_metadata db now path tags note_text).1 now2 path tags note_text
      = ((save_metadata db now path tags note_text).1, false) := by
  obtain ⟨row1, h1, h2, h3⟩ := save_metadata_establishes db now path tags note_text
  exact save_metadata_noop _ now2 path tags note_text row1 h1 h2 h3

end AutoFM
